import Mathlib

/-!
Verification of the entry store, schema migrator, query/filter engine and
cross-reference resolver of the Re_Dictionary_searcher repository
(`Re_DicSearcher_v6.py` and `Re_DicSearcher_v5.py`).

Modelling conventions:
* Python/SQLite text is modelled as `List Char`; Python `str.lower` is
  modelled by `Char.toLower` (ASCII case folding).
* The `dictionary` table is a `Store`: the list of rows in rowid scan order
  (`id` is an `INTEGER PRIMARY KEY AUTOINCREMENT`, i.e. an alias of the
  rowid, so the scan order is ascending `id`), plus the `sqlite_sequence`
  counter `seq` that backs `AUTOINCREMENT`.
* `SELECT ... ORDER BY sort_order ASC` names no secondary sort key, and
  SQLite leaves the relative order of rows with equal `ORDER BY` keys
  unspecified; `orderBySortOrder` states that contract (any permutation
  of the table that is non-strictly ascending in `sort_order` is an
  admissible result).  The executable `get_all_words` picks one
  admissible result (a merge sort of the scan order) so that concrete
  stores can be evaluated; theorems rely only on admissibility, never on
  which admissible order it picks.
* SQL statements that can fail (the migration steps) return `Option`.
-/

namespace ReDicSearcher

/-- One row of the `dictionary` table
(`id, term, pronunciation, pos, meaning, example, sort_order`).
The source column `example` is called `example_text` here because `example`
is a Lean keyword. -/
structure Entry where
  id : Nat
  term : List Char
  pronunciation : List Char
  pos : List Char
  meaning : List Char
  example_text : List Char
  sort_order : Int
deriving DecidableEq, Repr

/-- The candidate record handed to `upsert_word`
(`data` dict in the source: term, pronunciation, pos, meaning, example). -/
structure Candidate where
  term : List Char
  pronunciation : List Char
  pos : List Char
  meaning : List Char
  example_text : List Char
deriving DecidableEq, Repr

/-- The persisted `dictionary` table: rows in rowid (= `id`) scan order
together with the `AUTOINCREMENT` sequence counter. -/
structure Store where
  rows : List Entry
  seq : Nat
deriving DecidableEq, Repr

/-- Outcome of `upsert_word` (the source returns the strings
`"created"` / `"updated"`). -/
inductive UpsertResult where
  | created
  | updated
deriving DecidableEq, Repr

/-- The `WHERE term = ? AND pos = ?` test used by `upsert_word` and
`delete_word` (exact string equality, as in SQLite `=` on TEXT). -/
def keyMatch (t p : List Char) (e : Entry) : Bool :=
  e.term == t && e.pos == p

/-- `SELECT MAX(sort_order) FROM dictionary`: `none` models the SQL `NULL`
returned on an empty table. -/
def maxSortOrder : List Entry → Option Int
  | [] => none
  | e :: es =>
    match maxSortOrder es with
    | none => some e.sort_order
    | some m => some (max e.sort_order m)

/-- Overwrite of the non-key columns performed by the `UPDATE` branch of
`upsert_word` (`SET pronunciation=?, meaning=?, example=?`). -/
def updateFields (c : Candidate) (e : Entry) : Entry :=
  { e with pronunciation := c.pronunciation, meaning := c.meaning,
           example_text := c.example_text }

/-- The source line `new_order = 1 if max_order is None else max_order + 1`. -/
def newSortOrder (rows : List Entry) : Int :=
  match maxSortOrder rows with
  | none => 1
  | some m => m + 1

/-- The row built by the `INSERT` branch of `upsert_word`: the candidate's
five fields, the next `AUTOINCREMENT` id, and the next `sort_order`. -/
def newEntry (s : Store) (c : Candidate) : Entry :=
  { id := s.seq + 1, term := c.term, pronunciation := c.pronunciation,
    pos := c.pos, meaning := c.meaning, example_text := c.example_text,
    sort_order := newSortOrder s.rows }

/-- `DatabaseManager.upsert_word` (v6 lines 129-148, identical logic in v5):
look up by `(term, pos)`; if a row exists, `UPDATE` its pronunciation,
meaning and example; otherwise `INSERT` a new row with
`sort_order = MAX(sort_order)+1` (or `1` on an empty table) and a fresh
`AUTOINCREMENT` id. -/
def upsert_word (s : Store) (c : Candidate) : Store × UpsertResult :=
  if s.rows.any (keyMatch c.term c.pos) then
    ({ s with
        rows := s.rows.map fun e =>
          if keyMatch c.term c.pos e then updateFields c e else e },
     UpsertResult.updated)
  else
    ({ rows := s.rows ++ [newEntry s c], seq := s.seq + 1 },
     UpsertResult.created)

/-- Comparison used by `ORDER BY sort_order ASC`. -/
def soLE (a b : Entry) : Bool := a.sort_order ≤ b.sort_order

/-- `DatabaseManager.get_all_words` (v6 lines 123-127):
`SELECT * FROM dictionary ORDER BY sort_order ASC`.  The query requests
no secondary sort key and SQLite leaves the relative order of rows with
equal `sort_order` unspecified, so this executable model picks one
admissible result (a merge sort of the scan order); `orderBySortOrder`
below is the faithful contract, and theorems use only what that contract
guarantees. -/
def get_all_words (s : Store) : List Entry :=
  s.rows.mergeSort soLE

/-- The contract of `SELECT * FROM dictionary ORDER BY sort_order ASC`:
an output is admissible exactly when it is a permutation of the table's
rows that ascends (non-strictly) in `sort_order`.  SQLite does not
specify the relative order of rows with equal `sort_order` values, and
the query names no `id` tie-break, so every such permutation is an
admissible result of the statement. -/
def orderBySortOrder (rows out : List Entry) : Prop :=
  out.Perm rows ∧ out.Pairwise fun a b => a.sort_order ≤ b.sort_order

instance orderBySortOrder.decidable (rows out : List Entry) :
    Decidable (orderBySortOrder rows out) := by
  unfold orderBySortOrder; infer_instance

/-- One `UPDATE dictionary SET sort_order = ? WHERE id = ?` statement. -/
def setSO (i : Nat) (o : Int) (e : Entry) : Entry :=
  if e.id == i then { e with sort_order := o } else e

/-- `DatabaseManager.update_order` (v6 lines 154-158): two sequential
`UPDATE ... SET sort_order = ? WHERE id = ?` statements. -/
def update_order (s : Store) (id1 : Nat) (o1 : Int) (id2 : Nat) (o2 : Int) :
    Store :=
  { s with rows := (s.rows.map (setSO id1 o1)).map (setSO id2 o2) }

/-- Folding a list of candidates through `upsert_word`
(an arbitrary sequence of Upsert calls). -/
def applyUpserts (s : Store) (cs : List Candidate) : Store :=
  cs.foldl (fun t c => (upsert_word t c).1) s

/-- The `UNIQUE(term, pos)` invariant: no two rows share both key columns. -/
def uniqueKeys (rows : List Entry) : Prop :=
  rows.Pairwise fun a b => ¬(a.term = b.term ∧ a.pos = b.pos)

instance uniqueKeys.decidable (rows : List Entry) :
    Decidable (uniqueKeys rows) := by
  unfold uniqueKeys; infer_instance

/-- Boolean form of the `UNIQUE(term, pos)` constraint check that SQLite
performs while executing `INSERT INTO dictionary ... SELECT`. -/
def uniqueKeysB : List Entry → Bool
  | [] => true
  | e :: es =>
    es.all (fun f => !(f.term == e.term && f.pos == e.pos)) && uniqueKeysB es

/-! ### Schema migrator (v5 `DatabaseManager.migrate_db`, lines 62-111)

The database file holds the `dictionary` table and, transiently during a
migration, the renamed `dictionary_old` table.  Each migration step is one
SQL statement that either succeeds (returning the new database state) or
raises `sqlite3.OperationalError` (returning `none`); the `try`/`except`
in the source swallows the error and skips the remaining steps. -/

/-- The database file: the `dictionary` table (if it exists) and the
`dictionary_old` table (if it exists). -/
structure DbFile where
  dict : Option Store
  dict_old : Option Store
deriving DecidableEq, Repr

/-- The four statements inside the `try` block of v5 `migrate_db`:
`ALTER TABLE dictionary RENAME TO dictionary_old`,
`CREATE TABLE IF NOT EXISTS dictionary (...)`,
`INSERT INTO dictionary (term, pronunciation, pos, meaning, example,
sort_order) SELECT ... FROM dictionary_old`, and
`DROP TABLE dictionary_old`. -/
inductive MigStep where
  | renameOld
  | createNew
  | copyRows
  | dropOld
deriving DecidableEq, Repr

/-- The rows produced by the `INSERT ... SELECT` copy: every column except
`id` is copied in scan order, and `id` is freshly assigned by
`AUTOINCREMENT` continuing from the destination table's sequence. -/
def copiedRows (seq : Nat) (old : List Entry) : List Entry :=
  old.enum.map fun p => { p.2 with id := seq + p.1 + 1 }

/-- Execute one migration step; `none` models a raised
`sqlite3.OperationalError` (rename onto an existing table, statement on a
missing table, or a `UNIQUE(term, pos)` violation during the copy, which
aborts the whole `INSERT ... SELECT` statement). -/
def runStep (db : DbFile) (st : MigStep) : Option DbFile :=
  match st with
  | MigStep.renameOld =>
    match db.dict, db.dict_old with
    | some s, none => some { dict := none, dict_old := some s }
    | _, _ => none
  | MigStep.createNew =>
    match db.dict with
    | some _ => some db
    | none => some { db with dict := some { rows := [], seq := 0 } }
  | MigStep.copyRows =>
    match db.dict, db.dict_old with
    | some d, some old =>
      if uniqueKeysB (d.rows ++ copiedRows d.seq old.rows) then
        some { db with
                dict := some { rows := d.rows ++ copiedRows d.seq old.rows,
                               seq := d.seq + old.rows.length } }
      else none
    | _, _ => none
  | MigStep.dropOld =>
    match db.dict_old with
    | some _ => some { db with dict_old := none }
    | none => none

/-- Run the steps in order; the first failure is swallowed by the
`except` clause and the remaining steps are skipped.  Returns the final
database state together with the list of steps that actually executed. -/
def runSteps (db : DbFile) : List MigStep → DbFile × List MigStep
  | [] => (db, [])
  | st :: rest =>
    match runStep db st with
    | some db2 =>
      let r := runSteps db2 rest
      (r.1, st :: r.2)
    | none => (db, [])

/-- The step sequence of the v5 migration `try` block. -/
def migSeq : List MigStep :=
  [MigStep.renameOld, MigStep.createNew, MigStep.copyRows, MigStep.dropOld]

/-- v5 `DatabaseManager.migrate_db`: if no `dictionary` table exists,
create it fresh; otherwise run the rename/create/copy/drop sequence,
swallowing any failure. -/
def migrate_db_v5 (db : DbFile) : DbFile :=
  match db.dict with
  | none => { db with dict := some { rows := [], seq := 0 } }
  | some _ => (runSteps db migSeq).1

/-- v6 `DatabaseManager.migrate_db` (lines 101-121): only
`CREATE TABLE IF NOT EXISTS dictionary (...)` — a no-op when the table
already exists. -/
def migrate_db_v6 (db : DbFile) : DbFile :=
  match db.dict with
  | none => { db with dict := some { rows := [], seq := 0 } }
  | some _ => db

/-- The non-`id` columns of a row
(`term, pronunciation, pos, meaning, example, sort_order`). -/
structure RowData where
  term : List Char
  pronunciation : List Char
  pos : List Char
  meaning : List Char
  example_text : List Char
  sort_order : Int
deriving DecidableEq, Repr

/-- Project a row to its non-`id` columns. -/
def projFields (e : Entry) : RowData :=
  { term := e.term, pronunciation := e.pronunciation, pos := e.pos,
    meaning := e.meaning, example_text := e.example_text,
    sort_order := e.sort_order }

/-- `ORDER BY sort_order ASC` comparison on projected rows. -/
def soLERow (a b : RowData) : Bool := a.sort_order ≤ b.sort_order

/-! ### Query/filter engine (v6 `ReDicSearcherApp.refresh_list`, lines 541-555) -/

/-- The three search modes of the radio buttons
(`"contains"`, `"startswith"`, `"endswith"`). -/
inductive SearchMode where
  | contains
  | startswith
  | endswith
deriving DecidableEq, Repr

/-- Python `str.lower()` (ASCII folding in this model). -/
def lowerL (s : List Char) : List Char := s.map Char.toLower

/-- Python `s.startswith(pat)` on the character lists (pattern first). -/
def startsWithB : List Char → List Char → Bool
  | [], _ => true
  | _ :: _, [] => false
  | a :: pat, b :: s => a == b && startsWithB pat s

/-- Python `pat in s` (substring test) on the character lists. -/
def containsB (pat : List Char) : List Char → Bool
  | [] => pat.isEmpty
  | b :: s => startsWithB pat (b :: s) || containsB pat s

/-- Python `s.endswith(pat)` on the character lists. -/
def endsWithB (pat s : List Char) : Bool :=
  startsWithB pat.reverse s.reverse

/-- The per-item match test of `refresh_list`: the query has already been
lowercased once (`query = query.lower()`); the item's term is lowercased
(`w_l = w.lower()`); an empty query matches everything, otherwise the
selected mode's string test applies to the term only. -/
def matchesTerm (q : List Char) (mode : SearchMode) (e : Entry) : Bool :=
  let wl := lowerL e.term
  if q.isEmpty then true
  else
    match mode with
    | SearchMode.contains => containsB q wl
    | SearchMode.startswith => startsWithB q wl
    | SearchMode.endswith => endsWithB q wl

/-- The filtering core of `ReDicSearcherApp.refresh_list`: keep, in order,
the cached entries whose term matches the lowercased query. -/
def refresh_list (cache : List Entry) (query : List Char)
    (mode : SearchMode) : List Entry :=
  cache.filter (matchesTerm (lowerL query) mode)

/-! ### Cross-reference resolver
(v6 `ReDicSearcherApp.show_detail` lines 557-581 and
`jump_to_word_filter` lines 438-442) -/

/-- One rendered span of the detail text: plain text, or a clickable link
word (the text captured between `[` and `]`). -/
inductive Span where
  | plain (text : List Char)
  | link (word : List Char)
deriving DecidableEq, Repr

/-- Scan the characters following a literal `[` for the closing `]` of the
Python regex `\[(.*?)\]`: `.*?` takes the shortest run, and `.` matches
any character except a newline, so the match succeeds exactly when a `]`
occurs before any newline; returns the captured word and the rest. -/
def findClose : List Char → Option (List Char × List Char)
  | [] => none
  | c :: cs =>
    if c = ']' then some ([], cs)
    else if c = '\n' then none
    else
      match findClose cs with
      | some (w, rest) => some (c :: w, rest)
      | none => none

/-- Emit the pending plain-text run (reversed accumulator), skipping the
empty run: `Text.insert` of an empty string renders nothing. -/
def pushPlain (acc : List Char) (spans : List Span) : List Span :=
  if acc.isEmpty then spans else Span.plain acc.reverse :: spans

/-- The `finditer` loop of `show_detail` over `\[(.*?)\]`: fuelled
scanner (the fuel is the remaining text length, so it never runs out). -/
def scanLinks : Nat → List Char → List Char → List Span
  | _, acc, [] => pushPlain acc []
  | 0, acc, c :: cs => pushPlain ((c :: cs).reverse ++ acc) []
  | fuel + 1, acc, c :: cs =>
    if c = '[' then
      match findClose cs with
      | some (w, rest) => pushPlain acc (Span.link w :: scanLinks fuel [] rest)
      | none => scanLinks fuel (c :: acc) cs
    else scanLinks fuel (c :: acc) cs

/-- `ExtractLinks`: split a text into interleaved plain spans and link
words, as the `finditer` loop of `show_detail` does. -/
def extractLinks (text : List Char) : List Span :=
  scanLinks text.length [] text

/-- Concatenate the spans back, restoring the bracket characters consumed
around each link word. -/
def flattenSpans : List Span → List Char
  | [] => []
  | Span.plain t :: rest => t ++ flattenSpans rest
  | Span.link w :: rest => '[' :: (w ++ (']' :: flattenSpans rest))

/-- Modelled from the spec: the closing-bracket scan as the claim words it
("the shortest run of characters not containing `]`"), i.e. without the
newline exclusion that Python's `.` performs. -/
def findCloseSpec : List Char → Option (List Char × List Char)
  | [] => none
  | c :: cs =>
    if c = ']' then some ([], cs)
    else
      match findCloseSpec cs with
      | some (w, rest) => some (c :: w, rest)
      | none => none

/-- Modelled from the spec: the claim's splitting procedure, identical to
`scanLinks` except that it uses `findCloseSpec`. -/
def scanLinksSpec : Nat → List Char → List Char → List Span
  | _, acc, [] => pushPlain acc []
  | 0, acc, c :: cs => pushPlain ((c :: cs).reverse ++ acc) []
  | fuel + 1, acc, c :: cs =>
    if c = '[' then
      match findCloseSpec cs with
      | some (w, rest) =>
        pushPlain acc (Span.link w :: scanLinksSpec fuel [] rest)
      | none => scanLinksSpec fuel (c :: acc) cs
    else scanLinksSpec fuel (c :: acc) cs

/-- Modelled from the spec: `ExtractLinks` as the claim describes it. -/
def extractLinksSpec (text : List Char) : List Span :=
  scanLinksSpec text.length [] text

/-- The observable result of `jump_to_word_filter`: the search box text,
the search mode, the visible (filtered) list, the listbox selection, and
the line written to the system log. -/
structure JumpResult where
  search_text : List Char
  mode : SearchMode
  visible : List Entry
  selected : Option Nat
  log_msg : List Char
deriving DecidableEq, Repr

/-- `ReDicSearcherApp.jump_to_word_filter` (v6 lines 438-442): put the
link word into the search box, force mode `contains`, refresh the list
with the word as query, log `"Filtered by link: {word}"`, and select the
first row when the filtered list is non-empty. -/
def jump_to_word_filter (s : Store) (word : List Char) : JumpResult :=
  let vis := refresh_list (get_all_words s) word SearchMode.contains
  { search_text := word, mode := SearchMode.contains, visible := vis,
    selected := if vis.length > 0 then some 0 else none,
    log_msg := "Filtered by link: ".data ++ word }

/-- Concrete-row builder used by witness and counterexample theorems. -/
def mkRow (i : Nat) (t p : String) (so : Int) : Entry :=
  { id := i, term := t.data, pronunciation := [], pos := p.data,
    meaning := [], example_text := [], sort_order := so }

/-- Concrete-candidate builder used by witness theorems. -/
def mkCand (t p : String) : Candidate :=
  { term := t.data, pronunciation := [], pos := p.data,
    meaning := [], example_text := [] }

/-! ## Helper lemmas -/

theorem setSO_pos {e : Entry} {i : Nat} (o : Int) (h : e.id = i) :
    setSO i o e = { e with sort_order := o } := by
  simp [setSO, h]

theorem setSO_neg {e : Entry} {i : Nat} (o : Int) (h : e.id ≠ i) :
    setSO i o e = e := by
  simp [setSO, h]

theorem startsWithB_self (l : List Char) : startsWithB l l = true := by
  induction l with
  | nil => rfl
  | cons a as ih => simp [startsWithB, ih]

theorem startsWithB_containsB {q w : List Char} (h : startsWithB q w = true) :
    containsB q w = true := by
  cases w with
  | nil =>
    cases q with
    | nil => rfl
    | cons a as => simp [startsWithB] at h
  | cons b bs => simp [containsB, h]

theorem containsB_self (l : List Char) : containsB l l = true :=
  startsWithB_containsB (startsWithB_self l)

theorem matchesTerm_nil (mode : SearchMode) (e : Entry) :
    matchesTerm [] mode e = true := rfl

theorem matchesTerm_of_lower_eq {q : List Char} {e : Entry}
    (h : lowerL e.term = q) :
    matchesTerm q SearchMode.contains e = true := by
  unfold matchesTerm
  by_cases hq : q.isEmpty
  · simp [hq]
  · simp only [hq, if_neg, Bool.false_eq_true, if_false]
    rw [h]
    exact containsB_self q

/-! ## Claim theorems -/

/-- Claim C6: for every entry list, query and mode, the filter of
`refresh_list` returns a subsequence of the input (relative order
preserved); the empty query matches every entry; a startswith match is
also a contains match (so the startswith result is a subset of the
contains result); matching looks at the term only; and matching is
case-insensitive: querying `"ABC"` and `"abc"` give the same result. -/
theorem refresh_list_contract (all : List Entry) (q : List Char)
    (mode : SearchMode) :
    (refresh_list all q mode).Sublist all ∧
    refresh_list all [] mode = all ∧
    (∀ e, e ∈ refresh_list all q SearchMode.startswith →
          e ∈ refresh_list all q SearchMode.contains) ∧
    (∀ e1 e2 : Entry, e1.term = e2.term →
       matchesTerm (lowerL q) mode e1 = matchesTerm (lowerL q) mode e2) ∧
    refresh_list all ("ABC".data) SearchMode.contains =
      refresh_list all ("abc".data) SearchMode.contains := by
  refine ⟨List.filter_sublist _, ?_, ?_, ?_, ?_⟩
  · exact List.filter_eq_self.mpr fun a _ => rfl
  · intro e he
    rw [refresh_list, List.mem_filter] at he ⊢
    refine ⟨he.1, ?_⟩
    have hm := he.2
    unfold matchesTerm at hm ⊢
    by_cases hq : (lowerL q).isEmpty
    · simp [hq]
    · simp only [hq, Bool.false_eq_true, if_false] at hm ⊢
      exact startsWithB_containsB hm
  · intro e1 e2 h
    unfold matchesTerm
    rw [h]
  · unfold refresh_list
    rw [show lowerL ("ABC".data) = lowerL ("abc".data) from by decide]

/-- Witness for C6 at a concrete list and query: the empty query returns
the whole list. -/
theorem refresh_list_contract_witness :
    refresh_list [mkRow 1 "run" "V" 1, mkRow 2 "sprint" "N" 2] []
      SearchMode.contains =
      [mkRow 1 "run" "V" 1, mkRow 2 "sprint" "N" 2] :=
  (refresh_list_contract [mkRow 1 "run" "V" 1, mkRow 2 "sprint" "N" 2] []
    SearchMode.contains).2.1

/-- Claim C7: `Swap` is self-inverse — for entries with ids `idA`, `idB`
holding `sort_order` values `oA`, `oB`, running
`update_order idA oB idB oA` and then `update_order idA oA idB oB`
restores the store exactly; and no `update_order` call changes any column
other than `sort_order`, nor touches a row whose id is not one of the two
named ids. -/
theorem update_order_contract (s : Store) (idA idB : Nat) (oA oB : Int)
    (hA : ∀ e ∈ s.rows, e.id = idA → e.sort_order = oA)
    (hB : ∀ e ∈ s.rows, e.id = idB → e.sort_order = oB) :
    update_order (update_order s idA oB idB oA) idA oA idB oB = s ∧
    (∀ (id1 id2 : Nat) (o1 o2 : Int), ∃ g : Entry → Entry,
       (update_order s id1 o1 id2 o2).rows = s.rows.map g ∧
       (update_order s id1 o1 id2 o2).seq = s.seq ∧
       (∀ e, (g e).id = e.id ∧ (g e).term = e.term ∧
             (g e).pronunciation = e.pronunciation ∧ (g e).pos = e.pos ∧
             (g e).meaning = e.meaning ∧
             (g e).example_text = e.example_text) ∧
       (∀ e, e.id ≠ id1 → e.id ≠ id2 → g e = e)) := by
  constructor
  · have hrows :
        ((((s.rows.map (setSO idA oB)).map (setSO idB oA)).map
            (setSO idA oA)).map (setSO idB oB)) = s.rows := by
      rw [List.map_map, List.map_map, List.map_map]
      refine (List.map_congr_left ?_).trans (List.map_id _)
      intro e he
      simp only [Function.comp, id]
      by_cases ha : e.id = idA <;> by_cases hb : e.id = idB
      · have hso : e.sort_order = oB := hB e he hb
        have e1 : setSO idA oB e = { e with sort_order := oB } :=
          setSO_pos oB ha
        have e2 : setSO idB oA { e with sort_order := oB } =
            { e with sort_order := oA } :=
          setSO_pos (e := { e with sort_order := oB }) oA hb
        have e3 : setSO idA oA { e with sort_order := oA } =
            { e with sort_order := oA } :=
          setSO_pos (e := { e with sort_order := oA }) oA ha
        have e4 : setSO idB oB { e with sort_order := oA } =
            { e with sort_order := oB } :=
          setSO_pos (e := { e with sort_order := oA }) oB hb
        rw [e1, e2, e3, e4, ← hso]
      · have hso : e.sort_order = oA := hA e he ha
        have e1 : setSO idA oB e = { e with sort_order := oB } :=
          setSO_pos oB ha
        have e2 : setSO idB oA { e with sort_order := oB } =
            { e with sort_order := oB } :=
          setSO_neg (e := { e with sort_order := oB }) oA hb
        have e3 : setSO idA oA { e with sort_order := oB } =
            { e with sort_order := oA } :=
          setSO_pos (e := { e with sort_order := oB }) oA ha
        have e4 : setSO idB oB { e with sort_order := oA } =
            { e with sort_order := oA } :=
          setSO_neg (e := { e with sort_order := oA }) oB hb
        rw [e1, e2, e3, e4, ← hso]
      · have hso : e.sort_order = oB := hB e he hb
        have e1 : setSO idA oB e = e := setSO_neg oB ha
        have e2 : setSO idB oA e = { e with sort_order := oA } :=
          setSO_pos oA hb
        have e3 : setSO idA oA { e with sort_order := oA } =
            { e with sort_order := oA } :=
          setSO_neg (e := { e with sort_order := oA }) oA ha
        have e4 : setSO idB oB { e with sort_order := oA } =
            { e with sort_order := oB } :=
          setSO_pos (e := { e with sort_order := oA }) oB hb
        rw [e1, e2, e3, e4, ← hso]
      · rw [setSO_neg oB ha, setSO_neg oA hb, setSO_neg oA ha,
            setSO_neg oB hb]
    show Store.mk
        ((((s.rows.map (setSO idA oB)).map (setSO idB oA)).map
            (setSO idA oA)).map (setSO idB oB)) s.seq = s
    rw [hrows]
  · intro id1 id2 o1 o2
    refine ⟨setSO id2 o2 ∘ setSO id1 o1, ?_, rfl, ?_, ?_⟩
    · show (s.rows.map (setSO id1 o1)).map (setSO id2 o2) = _
      rw [List.map_map]
    · intro e
      simp only [Function.comp]
      by_cases h1 : e.id = id1 <;> by_cases h2 : e.id = id2
      · rw [setSO_pos o1 h1,
            setSO_pos (e := { e with sort_order := o1 }) o2 h2]
        exact ⟨rfl, rfl, rfl, rfl, rfl, rfl⟩
      · rw [setSO_pos o1 h1,
            setSO_neg (e := { e with sort_order := o1 }) o2 h2]
        exact ⟨rfl, rfl, rfl, rfl, rfl, rfl⟩
      · rw [setSO_neg o1 h1, setSO_pos o2 h2]
        exact ⟨rfl, rfl, rfl, rfl, rfl, rfl⟩
      · rw [setSO_neg o1 h1, setSO_neg o2 h2]
        exact ⟨rfl, rfl, rfl, rfl, rfl, rfl⟩
    · intro e h1 h2
      simp only [Function.comp]
      rw [setSO_neg o1 h1, setSO_neg o2 h2]

/-- Witness for C7: a concrete double swap on a two-row store restores it. -/
theorem update_order_contract_witness :
    update_order
      (update_order { rows := [mkRow 1 "a" "V" 10, mkRow 2 "b" "V" 20],
                      seq := 2 } 1 20 2 10) 1 10 2 20 =
      { rows := [mkRow 1 "a" "V" 10, mkRow 2 "b" "V" 20], seq := 2 } :=
  (update_order_contract
    { rows := [mkRow 1 "a" "V" 10, mkRow 2 "b" "V" 20], seq := 2 }
    1 2 10 20 (by decide) (by decide)).1

theorem uniqueKeys_upsert (s : Store) (c : Candidate)
    (h : uniqueKeys s.rows) : uniqueKeys (upsert_word s c).1.rows := by
  unfold upsert_word
  by_cases hc : s.rows.any (keyMatch c.term c.pos) = true
  · simp only [hc, if_true]
    unfold uniqueKeys at h ⊢
    rw [List.pairwise_map]
    refine h.imp ?_
    intro a b hab
    by_cases hka : keyMatch c.term c.pos a = true <;>
      by_cases hkb : keyMatch c.term c.pos b = true <;>
      simp [hka, hkb, updateFields] <;>
      exact fun ht hp => hab ⟨ht, hp⟩
  · rw [Bool.not_eq_true] at hc
    simp only [hc, Bool.false_eq_true, if_false]
    unfold uniqueKeys at h ⊢
    rw [List.pairwise_append]
    refine ⟨h, List.pairwise_singleton _ _, ?_⟩
    intro a ha b hb
    have hb2 : b = newEntry s c := List.mem_singleton.mp hb
    have hk : keyMatch c.term c.pos a = false := by
      have hk2 := List.any_eq_false.mp hc a ha
      exact Bool.not_eq_true _ ▸ hk2
    intro hcon
    rcases hcon with ⟨ht, hp⟩
    rw [hb2] at ht hp
    simp only [keyMatch, Bool.and_eq_false_iff, beq_eq_false_iff_ne] at hk
    rcases hk with hk | hk <;> exact hk (by simp_all [newEntry])

/-- Claim C1: starting from any store satisfying the `UNIQUE(term, pos)`
invariant, any sequence of `upsert_word` calls preserves it — no two
stored rows ever share both `term` and `pos` (rows may share a term when
their parts of speech differ). -/
theorem upsert_sequence_uniqueKeys (cs : List Candidate) (s : Store)
    (h : uniqueKeys s.rows) : uniqueKeys (applyUpserts s cs).rows := by
  induction cs generalizing s with
  | nil => exact h
  | cons c cs ih =>
    simp only [applyUpserts, List.foldl_cons]
    exact ih _ (uniqueKeys_upsert s c h)

/-- Witness for C1: two upserts that share a term but not a part of
speech, applied to the empty store, keep the invariant. -/
theorem upsert_sequence_uniqueKeys_witness :
    uniqueKeys (applyUpserts { rows := [], seq := 0 }
      [mkCand "run" "V", mkCand "run" "N", mkCand "run" "V"]).rows :=
  upsert_sequence_uniqueKeys
    [mkCand "run" "V", mkCand "run" "N", mkCand "run" "V"]
    { rows := [], seq := 0 } (by decide)

theorem newSortOrder_of_some {l : List Entry} {m : Int}
    (h : maxSortOrder l = some m) : newSortOrder l = m + 1 := by
  simp [newSortOrder, h]

theorem newSortOrder_of_none {l : List Entry}
    (h : maxSortOrder l = none) : newSortOrder l = 1 := by
  simp [newSortOrder, h]

theorem maxSortOrder_eq_none {l : List Entry} :
    maxSortOrder l = none ↔ l = [] := by
  cases l with
  | nil => exact ⟨fun _ => rfl, fun _ => rfl⟩
  | cons e es =>
    simp only [maxSortOrder]
    cases maxSortOrder es <;> simp

theorem maxSortOrder_ge {l : List Entry} {m : Int}
    (h : maxSortOrder l = some m) :
    ∀ f ∈ l, f.sort_order ≤ m := by
  induction l generalizing m with
  | nil => exact Option.noConfusion h
  | cons e es ih =>
    intro f hf
    simp only [maxSortOrder] at h
    cases hes : maxSortOrder es with
    | none =>
      rw [hes] at h
      have hnil : es = [] := maxSortOrder_eq_none.mp hes
      rcases List.mem_cons.mp hf with hfe | hfes
      · simp only [Option.some.injEq] at h; rw [hfe, ← h]
      · rw [hnil] at hfes; simp at hfes
    | some m2 =>
      rw [hes] at h
      simp only [Option.some.injEq] at h
      rcases List.mem_cons.mp hf with hfe | hfes
      · rw [hfe, ← h]; exact le_max_left _ _
      · exact le_trans (ih hes f hfes) (h ▸ le_max_right _ _)

theorem maxSortOrder_mem {l : List Entry} {m : Int}
    (h : maxSortOrder l = some m) :
    ∃ f ∈ l, f.sort_order = m := by
  induction l generalizing m with
  | nil => exact Option.noConfusion h
  | cons e es ih =>
    simp only [maxSortOrder] at h
    cases hes : maxSortOrder es with
    | none =>
      rw [hes] at h
      simp only [Option.some.injEq] at h
      exact ⟨e, List.mem_cons_self _ _, h⟩
    | some m2 =>
      rw [hes] at h
      simp only [Option.some.injEq] at h
      rcases max_choice e.sort_order m2 with hmx | hmx
      · exact ⟨e, List.mem_cons_self _ _, by rw [← h, hmx]⟩
      · rcases ih hes with ⟨f, hf, hfm⟩
        exact ⟨f, List.mem_cons_of_mem _ hf, by rw [← h, hmx, hfm]⟩

/-- Claim C2: the `upsert_word` contract.  For a candidate with non-empty
term, the lookup is by the `(term, pos)` pair.  If no row matches, a new
row is inserted at the end carrying the candidate's five fields, a fresh
id (different from every stored id), and `sort_order` equal to the
maximum stored `sort_order` plus one (`1` on an empty store), and the
call returns `created`.  If a row matches, only pronunciation, meaning
and example are overwritten; id, term, pos and `sort_order` of every row
are unchanged, unmatched rows are untouched, and the call returns
`updated`. -/
theorem upsert_word_contract (s : Store) (c : Candidate)
    (_hterm : c.term ≠ []) (hid : ∀ e ∈ s.rows, e.id ≤ s.seq) :
    ((∀ e ∈ s.rows, keyMatch c.term c.pos e = false) →
       (upsert_word s c).2 = UpsertResult.created ∧
       ∃ en, (upsert_word s c).1.rows = s.rows ++ [en] ∧
         en.term = c.term ∧ en.pronunciation = c.pronunciation ∧
         en.pos = c.pos ∧ en.meaning = c.meaning ∧
         en.example_text = c.example_text ∧
         (∀ f ∈ s.rows, f.id ≠ en.id) ∧
         (s.rows = [] → en.sort_order = 1) ∧
         (∀ f ∈ s.rows, f.sort_order < en.sort_order) ∧
         (s.rows ≠ [] → ∃ f ∈ s.rows, en.sort_order = f.sort_order + 1)) ∧
    ((∃ e ∈ s.rows, keyMatch c.term c.pos e = true) →
       (upsert_word s c).2 = UpsertResult.updated ∧
       (upsert_word s c).1.seq = s.seq ∧
       ∃ g : Entry → Entry, (upsert_word s c).1.rows = s.rows.map g ∧
         (∀ e, (g e).id = e.id ∧ (g e).term = e.term ∧
               (g e).pos = e.pos ∧ (g e).sort_order = e.sort_order) ∧
         (∀ e, keyMatch c.term c.pos e = false → g e = e) ∧
         (∀ e, keyMatch c.term c.pos e = true →
            (g e).pronunciation = c.pronunciation ∧
            (g e).meaning = c.meaning ∧
            (g e).example_text = c.example_text)) := by
  constructor
  · intro hfree
    have hc : ¬(s.rows.any (keyMatch c.term c.pos) = true) := by
      rw [Bool.not_eq_true]
      exact List.any_eq_false.mpr fun e he => by rw [hfree e he]; simp
    unfold upsert_word
    rw [if_neg hc]
    refine ⟨rfl, _, rfl, rfl, rfl, rfl, rfl, rfl, ?_, ?_, ?_, ?_⟩
    · intro f hf
      show f.id ≠ s.seq + 1
      have := hid f hf
      omega
    · intro hnil
      show newSortOrder s.rows = 1
      exact newSortOrder_of_none (maxSortOrder_eq_none.mpr hnil)
    · intro f hf
      cases hmx : maxSortOrder s.rows with
      | none =>
        rw [maxSortOrder_eq_none.mp hmx] at hf
        simp at hf
      | some m =>
        have hle := maxSortOrder_ge hmx f hf
        show f.sort_order < newSortOrder s.rows
        rw [newSortOrder_of_some hmx]
        omega
    · intro hne
      cases hmx : maxSortOrder s.rows with
      | none => exact absurd (maxSortOrder_eq_none.mp hmx) hne
      | some m =>
        rcases maxSortOrder_mem hmx with ⟨f, hf, hfm⟩
        refine ⟨f, hf, ?_⟩
        show newSortOrder s.rows = f.sort_order + 1
        rw [newSortOrder_of_some hmx, hfm]
  · intro hex
    have hc : s.rows.any (keyMatch c.term c.pos) = true :=
      List.any_eq_true.mpr (by
        rcases hex with ⟨e, he, hk⟩; exact ⟨e, he, hk⟩)
    unfold upsert_word
    rw [if_pos hc]
    refine ⟨rfl, rfl,
      (fun e => if keyMatch c.term c.pos e then updateFields c e else e),
      rfl, ?_, ?_, ?_⟩
    · intro e
      by_cases hk : keyMatch c.term c.pos e = true <;>
        simp [hk, updateFields]
    · intro e hk
      simp [hk]
    · intro e hk
      simp [hk, updateFields]

/-- Witness for C2: upserting into the empty store returns `created`. -/
theorem upsert_word_contract_witness :
    (upsert_word { rows := [], seq := 0 } (mkCand "run" "V")).2 =
      UpsertResult.created :=
  ((upsert_word_contract { rows := [], seq := 0 } (mkCand "run" "V")
    (by decide) (by decide)).1 (by decide)).1

theorem findClose_eq {cs w rest : List Char}
    (h : findClose cs = some (w, rest)) :
    cs = w ++ ']' :: rest ∧ ']' ∉ w ∧ '\n' ∉ w := by
  induction cs generalizing w with
  | nil => exact Option.noConfusion h
  | cons c cs ih =>
    unfold findClose at h
    by_cases hc : c = ']'
    · rw [if_pos hc] at h
      injection h with h2
      injection h2 with hw hrest
      subst hw; subst hrest; subst hc
      exact ⟨rfl, by simp, by simp⟩
    · rw [if_neg hc] at h
      by_cases hn : c = '\n'
      · rw [if_pos hn] at h
        exact Option.noConfusion h
      · rw [if_neg hn] at h
        cases hfc : findClose cs with
        | none => rw [hfc] at h; exact Option.noConfusion h
        | some p =>
          obtain ⟨w2, rest2⟩ := p
          rw [hfc] at h
          injection h with h2
          injection h2 with hw hrest
          subst hrest
          rcases ih hfc with ⟨hcs, hw2, hn2⟩
          subst hw
          refine ⟨by rw [hcs]; rfl, ?_, ?_⟩
          · intro hmem
            rcases List.mem_cons.mp hmem with h3 | h3
            · exact hc h3.symm
            · exact hw2 h3
          · intro hmem
            rcases List.mem_cons.mp hmem with h3 | h3
            · exact hn h3.symm
            · exact hn2 h3

theorem findClose_length {cs w rest : List Char}
    (h : findClose cs = some (w, rest)) : rest.length < cs.length := by
  have := (findClose_eq h).1
  rw [this]
  simp only [List.length_append, List.length_cons]
  omega

theorem pushPlain_flatten (acc : List Char) (spans : List Span) :
    flattenSpans (pushPlain acc spans) = acc.reverse ++ flattenSpans spans := by
  unfold pushPlain
  by_cases h : acc.isEmpty
  · rw [if_pos h, List.isEmpty_iff.mp h]
    rfl
  · rw [if_neg h]
    rfl

theorem link_mem_pushPlain {w : List Char} {acc : List Char}
    {spans : List Span} (h : Span.link w ∈ pushPlain acc spans) :
    Span.link w ∈ spans := by
  unfold pushPlain at h
  by_cases ha : acc.isEmpty
  · rwa [if_pos ha] at h
  · rw [if_neg ha] at h
    rcases List.mem_cons.mp h with h2 | h2
    · exact Span.noConfusion h2
    · exact h2

theorem scanLinks_flatten :
    ∀ (fuel : Nat) (acc l : List Char), l.length ≤ fuel →
      flattenSpans (scanLinks fuel acc l) = acc.reverse ++ l := by
  intro fuel
  induction fuel with
  | zero =>
    intro acc l h
    have hl : l = [] := List.length_eq_zero.mp (Nat.le_zero.mp h)
    subst hl
    show flattenSpans (pushPlain acc []) = acc.reverse ++ []
    rw [pushPlain_flatten]
    rfl
  | succ n ih =>
    intro acc l h
    cases l with
    | nil =>
      show flattenSpans (pushPlain acc []) = acc.reverse ++ []
      rw [pushPlain_flatten]
      rfl
    | cons c cs =>
      have hcs : cs.length ≤ n := by
        simp only [List.length_cons] at h; omega
      show flattenSpans
          (if c = '[' then
            match findClose cs with
            | some (w, rest) =>
              pushPlain acc (Span.link w :: scanLinks n [] rest)
            | none => scanLinks n (c :: acc) cs
          else scanLinks n (c :: acc) cs) = acc.reverse ++ c :: cs
      by_cases hc : c = '['
      · rw [if_pos hc]
        cases hfc : findClose cs with
        | none =>
          rw [ih (c :: acc) cs hcs]
          simp
        | some p =>
          obtain ⟨w, rest⟩ := p
          rcases findClose_eq hfc with ⟨hcseq, hw, hn2⟩
          have hrest : rest.length ≤ n := by
            have := findClose_length hfc
            omega
          rw [pushPlain_flatten]
          show acc.reverse ++
              ('[' :: (w ++ (']' :: flattenSpans (scanLinks n [] rest)))) =
              acc.reverse ++ c :: cs
          rw [ih [] rest hrest]
          simp [hcseq, hc]
      · rw [if_neg hc, ih (c :: acc) cs hcs]
        simp

theorem scanLinks_links :
    ∀ (fuel : Nat) (acc l : List Char) (w : List Char),
      Span.link w ∈ scanLinks fuel acc l → ']' ∉ w ∧ '\n' ∉ w := by
  intro fuel
  induction fuel with
  | zero =>
    intro acc l w hmem
    cases l with
    | nil => exact absurd (link_mem_pushPlain hmem) (List.not_mem_nil _)
    | cons c cs =>
      exact absurd (link_mem_pushPlain hmem) (List.not_mem_nil _)
  | succ n ih =>
    intro acc l w hmem
    cases l with
    | nil => exact absurd (link_mem_pushPlain hmem) (List.not_mem_nil _)
    | cons c cs =>
      rw [show scanLinks (n + 1) acc (c :: cs) =
          (if c = '[' then
            match findClose cs with
            | some (w2, rest) =>
              pushPlain acc (Span.link w2 :: scanLinks n [] rest)
            | none => scanLinks n (c :: acc) cs
          else scanLinks n (c :: acc) cs) from rfl] at hmem
      by_cases hc : c = '['
      · rw [if_pos hc] at hmem
        cases hfc : findClose cs with
        | none =>
          rw [hfc] at hmem
          exact ih (c :: acc) cs w hmem
        | some p =>
          obtain ⟨w2, rest⟩ := p
          rw [hfc] at hmem
          have hmem2 := link_mem_pushPlain hmem
          rcases List.mem_cons.mp hmem2 with h2 | h2
          · injection h2 with hw
            subst hw
            rcases findClose_eq hfc with ⟨heq, hw2, hn2⟩
            exact ⟨hw2, hn2⟩
          · exact ih [] rest w h2
      · rw [if_neg hc] at hmem
        exact ih (c :: acc) cs w hmem

/-- Claim C8 (amended): `extractLinks` splits any text on the pattern "a
literal `[`, then the shortest run of characters containing neither `]`
nor a newline, then a literal `]`" — Python's `.` in `\[(.*?)\]` does not
match a newline.  Concatenating the interleaved plain spans and
bracket-restored link words reproduces the text exactly (so order and
content are preserved), every link word is free of `]` and of newlines,
and the concrete example splits as the claim states. -/
theorem extractLinks_contract :
    (∀ t : List Char, flattenSpans (extractLinks t) = t ∧
       ∀ w, Span.link w ∈ extractLinks t → ']' ∉ w ∧ '\n' ∉ w) ∧
    extractLinks ("See [cat] and [dog].".data) =
      [Span.plain ("See ".data), Span.link ("cat".data),
       Span.plain (" and ".data), Span.link ("dog".data),
       Span.plain (".".data)] := by
  constructor
  · intro t
    constructor
    · have := scanLinks_flatten t.length [] t le_rfl
      rwa [List.reverse_nil, List.nil_append] at this
    · intro w hmem
      exact scanLinks_links t.length [] t w hmem
  · decide

/-- Witness for C8's amended theorem at a concrete input. -/
theorem extractLinks_contract_witness :
    flattenSpans (extractLinks ("x[y]z".data)) = "x[y]z".data :=
  (extractLinks_contract.1 ("x[y]z".data)).1

/-- Counterexample for C8 as stated: on `"[a\nb]"` the code's regex does
not match (Python `.` excludes the newline), so the whole text stays
plain, while the claim's "shortest run of characters not containing `]`"
splitter would produce the link `"a\nb"`; the two disagree. -/
theorem extractLinks_newline_counterexample :
    extractLinks ("[a\nb]".data) = [Span.plain ("[a\nb]".data)] ∧
    extractLinksSpec ("[a\nb]".data) = [Span.link ("a\nb".data)] ∧
    extractLinks ("[a\nb]".data) ≠ extractLinksSpec ("[a\nb]".data) := by
  refine ⟨by decide, by decide, by decide⟩

/-- Claim C9 (amended): `jump_to_word_filter` invokes the filter with the
link word as query and mode `contains`, replaces the visible list with
the filter result, selects the first row exactly when the result is
non-empty, and always logs the line `"Filtered by link: {word}"` — it
never raises, but it also never emits a dedicated "link not found"
notice on an empty result (that notice exists only in the v3/v4
jump-to-selection implementation). -/
theorem jump_to_word_filter_contract (s : Store) (word : List Char) :
    (jump_to_word_filter s word).visible =
      refresh_list (get_all_words s) word SearchMode.contains ∧
    (jump_to_word_filter s word).mode = SearchMode.contains ∧
    (jump_to_word_filter s word).search_text = word ∧
    ((jump_to_word_filter s word).visible ≠ [] →
       (jump_to_word_filter s word).selected = some 0) ∧
    ((jump_to_word_filter s word).visible = [] →
       (jump_to_word_filter s word).selected = none) ∧
    (jump_to_word_filter s word).log_msg =
      "Filtered by link: ".data ++ word := by
  refine ⟨rfl, rfl, rfl, ?_, ?_, rfl⟩
  · intro hne
    show (if (refresh_list (get_all_words s) word
              SearchMode.contains).length > 0 then some 0 else none) = some 0
    rw [if_pos]
    exact List.length_pos.mpr hne
  · intro hemp
    have hemp2 : refresh_list (get_all_words s) word SearchMode.contains
        = [] := hemp
    show (if (refresh_list (get_all_words s) word
              SearchMode.contains).length > 0 then some 0 else none) = none
    rw [if_neg]
    rw [hemp2]
    simp

/-- Witness for C9's amended theorem: a jump whose filter result is
non-empty selects the first row. -/
theorem jump_to_word_filter_contract_witness :
    (jump_to_word_filter { rows := [mkRow 1 "sprint" "N" 1], seq := 1 }
      ("sprint".data)).selected = some 0 :=
  (jump_to_word_filter_contract
    { rows := [mkRow 1 "sprint" "N" 1], seq := 1 }
    ("sprint".data)).2.2.2.1 (by
      show refresh_list
          (get_all_words { rows := [mkRow 1 "sprint" "N" 1], seq := 1 })
          ("sprint".data) SearchMode.contains ≠ []
      rw [show get_all_words { rows := [mkRow 1 "sprint" "N" 1], seq := 1 }
          = [mkRow 1 "sprint" "N" 1] from by simp [get_all_words]]
      decide)

/-- Counterexample for C9 as stated: on a store with no matching entry the
filter result is empty, yet the only user-visible notice is
`"Filtered by link: zzz"` — it does not contain "link not found" (even
case-insensitively), so no "link not found" notice is reported. -/
theorem jump_not_found_counterexample :
    (jump_to_word_filter { rows := [mkRow 1 "cat" "N" 1], seq := 1 }
      ("zzz".data)).visible = [] ∧
    containsB (lowerL ("link not found".data))
      (lowerL ((jump_to_word_filter { rows := [mkRow 1 "cat" "N" 1], seq := 1 }
        ("zzz".data)).log_msg)) = false ∧
    (jump_to_word_filter { rows := [mkRow 1 "cat" "N" 1], seq := 1 }
      ("zzz".data)).log_msg = "Filtered by link: zzz".data := by
  have hg : get_all_words { rows := [mkRow 1 "cat" "N" 1], seq := 1 }
      = [mkRow 1 "cat" "N" 1] := by simp [get_all_words]
  refine ⟨?_, by decide, by decide⟩
  show refresh_list
      (get_all_words { rows := [mkRow 1 "cat" "N" 1], seq := 1 })
      ("zzz".data) SearchMode.contains = []
  rw [hg]
  decide

/-- Claim C4: in every execution of the migration step sequence
(rename, create, copy, drop) from a normal pre-migration state (a
`dictionary` table present, no leftover `dictionary_old`), the drop of
the renamed table executes only if the copy step executed and committed
(no `UNIQUE` violation); and when the copy step fails, the drop step is
never executed and the original rows remain in the database (in the
renamed `dictionary_old` table). -/
theorem migration_drop_after_copy (olds : Store) :
    (MigStep.dropOld ∈
        (runSteps { dict := some olds, dict_old := none } migSeq).2 →
       MigStep.copyRows ∈
         (runSteps { dict := some olds, dict_old := none } migSeq).2 ∧
       (runSteps { dict := some olds, dict_old := none } migSeq).2 =
         migSeq ∧
       uniqueKeysB (copiedRows 0 olds.rows) = true) ∧
    (uniqueKeysB (copiedRows 0 olds.rows) = false →
       MigStep.dropOld ∉
         (runSteps { dict := some olds, dict_old := none } migSeq).2 ∧
       (runSteps { dict := some olds, dict_old := none } migSeq).1.dict_old
         = some olds) := by
  by_cases hu : uniqueKeysB (copiedRows 0 olds.rows) = true
  · have hrun : runSteps { dict := some olds, dict_old := none } migSeq =
        ({ dict := some { rows := copiedRows 0 olds.rows,
                          seq := 0 + olds.rows.length },
           dict_old := none }, migSeq) := by
      simp [runSteps, runStep, migSeq, hu]
    constructor
    · intro hmem
      rw [hrun]
      refine ⟨?_, rfl, hu⟩
      show MigStep.copyRows ∈ migSeq
      decide
    · intro hfalse
      rw [hu] at hfalse
      exact Bool.noConfusion hfalse
  · have hu2 : uniqueKeysB (copiedRows 0 olds.rows) = false :=
      Bool.not_eq_true _ ▸ hu
    have hrun : runSteps { dict := some olds, dict_old := none } migSeq =
        ({ dict := some { rows := [], seq := 0 }, dict_old := some olds },
         [MigStep.renameOld, MigStep.createNew]) := by
      simp [runSteps, runStep, migSeq, hu2]
    constructor
    · intro hmem
      rw [hrun] at hmem
      have hmem2 : MigStep.dropOld ∈ [MigStep.renameOld, MigStep.createNew] :=
        hmem
      exact absurd hmem2 (by decide)
    · intro _
      rw [hrun]
      refine ⟨?_, rfl⟩
      show MigStep.dropOld ∉ [MigStep.renameOld, MigStep.createNew]
      decide

/-- Witness for C4 at a concrete failing copy: two rows sharing
`(term, pos)` make the copy fail, and the drop step is not executed. -/
theorem migration_drop_after_copy_witness :
    MigStep.dropOld ∉
      (runSteps
        { dict := some { rows := [mkRow 1 "a" "V" 1, mkRow 2 "a" "V" 2],
                         seq := 2 },
          dict_old := none } migSeq).2 :=
  ((migration_drop_after_copy
    { rows := [mkRow 1 "a" "V" 1, mkRow 2 "a" "V" 2], seq := 2 }).2
    (by decide)).1

theorem upsert_word_of_keyFree (s : Store) (c : Candidate)
    (h : ∀ e ∈ s.rows, keyMatch c.term c.pos e = false) :
    upsert_word s c =
      ({ rows := s.rows ++ [newEntry s c], seq := s.seq + 1 },
       UpsertResult.created) := by
  have hc : ¬(s.rows.any (keyMatch c.term c.pos) = true) := by
    rw [Bool.not_eq_true]
    exact List.any_eq_false.mpr fun e he => by rw [h e he]; simp
  unfold upsert_word
  rw [if_neg hc]

/-- Claim C10: entry identity is case-sensitive while search is
case-insensitive.  For two candidates whose terms differ as strings but
agree after lowercasing (for example `"run"` and `"Run"`) and that share
a part of speech, when neither key is present the second upsert creates
a distinct second row (it does not update the first), the store grows by
two rows, and the contains-mode filter with either spelling as the query
returns every row carrying either term. -/
theorem case_sensitive_identity (s : Store) (c1 c2 : Candidate)
    (hne : c1.term ≠ c2.term) (_hpos : c1.pos = c2.pos)
    (hlow : lowerL c1.term = lowerL c2.term)
    (h1 : ∀ e ∈ s.rows, keyMatch c1.term c1.pos e = false)
    (h2 : ∀ e ∈ s.rows, keyMatch c2.term c2.pos e = false) :
    (upsert_word s c1).2 = UpsertResult.created ∧
    (upsert_word (upsert_word s c1).1 c2).2 = UpsertResult.created ∧
    (upsert_word (upsert_word s c1).1 c2).1.rows.length =
      s.rows.length + 2 ∧
    (∃ eA ∈ (upsert_word (upsert_word s c1).1 c2).1.rows,
       eA.term = c1.term ∧ eA.pos = c1.pos) ∧
    (∃ eB ∈ (upsert_word (upsert_word s c1).1 c2).1.rows,
       eB.term = c2.term ∧ eB.pos = c2.pos) ∧
    (∀ e ∈ (upsert_word (upsert_word s c1).1 c2).1.rows,
       e.term = c1.term ∨ e.term = c2.term →
         e ∈ refresh_list
               (get_all_words (upsert_word (upsert_word s c1).1 c2).1)
               c1.term SearchMode.contains ∧
         e ∈ refresh_list
               (get_all_words (upsert_word (upsert_word s c1).1 c2).1)
               c2.term SearchMode.contains) := by
  have he1 := upsert_word_of_keyFree s c1 h1
  set s1 : Store :=
    { rows := s.rows ++ [newEntry s c1], seq := s.seq + 1 } with hs1
  have h2b : ∀ e ∈ s1.rows, keyMatch c2.term c2.pos e = false := by
    intro e he
    rcases List.mem_append.mp he with he | he
    · exact h2 e he
    · rw [List.mem_singleton.mp he]
      show (c1.term == c2.term && c1.pos == c2.pos) = false
      rw [beq_eq_false_iff_ne.mpr hne]
      rfl
  have he2 := upsert_word_of_keyFree s1 c2 h2b
  rw [he1]
  show (Prod.mk s1 UpsertResult.created).2 = UpsertResult.created ∧ _
  refine ⟨rfl, ?_⟩
  show (upsert_word s1 c2).2 = UpsertResult.created ∧ _
  rw [he2]
  refine ⟨rfl, ?_, ?_, ?_, ?_⟩
  · show (s1.rows ++ [newEntry s1 c2]).length = s.rows.length + 2
    rw [hs1]
    simp
  · refine ⟨newEntry s c1, ?_, rfl, rfl⟩
    show newEntry s c1 ∈ s1.rows ++ [newEntry s1 c2]
    rw [hs1]
    simp
  · refine ⟨newEntry s1 c2, ?_, rfl, rfl⟩
    simp
  · intro e he hterm2
    have hlq : lowerL e.term = lowerL c1.term := by
      rcases hterm2 with h3 | h3
      · rw [h3]
      · rw [h3, hlow]
    have hmem : e ∈ get_all_words
        ({ rows := s1.rows ++ [newEntry s1 c2], seq := s1.seq + 1 } :
          Store) :=
      List.mem_mergeSort.mpr he
    constructor
    · exact List.mem_filter.mpr ⟨hmem, matchesTerm_of_lower_eq hlq⟩
    · exact List.mem_filter.mpr
        ⟨hmem, matchesTerm_of_lower_eq (hlq.trans hlow)⟩

/-- Witness for C10 at `"run"` vs `"Run"` on the empty store: the second
upsert also returns `created`. -/
theorem case_sensitive_identity_witness :
    (upsert_word
      (upsert_word { rows := [], seq := 0 } (mkCand "run" "V")).1
      (mkCand "Run" "V")).2 = UpsertResult.created :=
  (case_sensitive_identity { rows := [], seq := 0 }
    (mkCand "run" "V") (mkCand "Run" "V")
    (by decide) (by decide) (by decide) (by decide) (by decide)).2.1

theorem copiedRows_proj (n : Nat) (l : List Entry) :
    (copiedRows n l).map projFields = l.map projFields := by
  unfold copiedRows
  rw [List.map_map]
  have h1 : l.enum.map (projFields ∘ fun p => { p.2 with id := n + p.1 + 1 })
      = l.enum.map (projFields ∘ Prod.snd) :=
    List.map_congr_left fun p _ => rfl
  rw [h1, ← List.map_map, List.enum_map_snd]

theorem copiedRows_length (n : Nat) (l : List Entry) :
    (copiedRows n l).length = l.length := by
  simp [copiedRows]

theorem copiedRows_ids (l : List Entry) :
    (copiedRows 0 l).map (fun e => e.id) =
      (List.range l.length).map (fun i => i + 1) := by
  unfold copiedRows
  rw [List.map_map]
  have h1 : l.enum.map ((fun e => e.id) ∘
        fun p => { p.2 with id := 0 + p.1 + 1 })
      = l.enum.map ((fun i => i + 1) ∘ Prod.fst) :=
    List.map_congr_left fun p _ => by
      show 0 + p.1 + 1 = p.1 + 1
      omega
  rw [h1, ← List.map_map, List.enum_map_fst]

theorem pairwise_enum_of_pairwise {R : Entry → Entry → Prop}
    {l : List Entry} (h : l.Pairwise R) :
    l.enum.Pairwise fun p q => R p.2 q.2 := by
  rw [List.pairwise_iff_getElem] at h ⊢
  intro i j hi hj hij
  rw [List.enum_length] at hi hj
  rw [List.getElem_enum, List.getElem_enum]
  exact h i j hi hj hij

theorem uniqueKeys_copiedRows {l : List Entry} (n : Nat)
    (h : uniqueKeys l) : uniqueKeys (copiedRows n l) := by
  unfold uniqueKeys copiedRows
  rw [List.pairwise_map]
  exact pairwise_enum_of_pairwise h

theorem uniqueKeysB_iff {l : List Entry} :
    uniqueKeysB l = true ↔ uniqueKeys l := by
  induction l with
  | nil => simp [uniqueKeysB, uniqueKeys]
  | cons e es ih =>
    rw [uniqueKeys, List.pairwise_cons, ← uniqueKeys]
    simp only [uniqueKeysB, Bool.and_eq_true, List.all_eq_true]
    constructor
    · rintro ⟨hall, hb⟩
      refine ⟨?_, ih.mp hb⟩
      intro b hbmem hcon
      have h2 := hall b hbmem
      rw [hcon.1, hcon.2] at h2
      simp at h2
    · rintro ⟨hhead, htail⟩
      refine ⟨?_, ih.mpr htail⟩
      intro b hbmem
      have h2 := hhead b hbmem
      simp only [Bool.not_eq_true', Bool.and_eq_false_iff,
        beq_eq_false_iff_ne, ne_eq]
      by_cases hbt : b.term = e.term
      · right
        intro hbp
        exact h2 ⟨hbt.symm, hbp.symm⟩
      · left
        exact hbt

theorem migrate_v5_run (s : Store) (h : uniqueKeys s.rows) :
    migrate_db_v5 { dict := some s, dict_old := none } =
      { dict := some { rows := copiedRows 0 s.rows,
                       seq := 0 + s.rows.length },
        dict_old := none } := by
  have hu : uniqueKeysB (copiedRows 0 s.rows) = true :=
    uniqueKeysB_iff.mpr (uniqueKeys_copiedRows 0 h)
  show (runSteps { dict := some s, dict_old := none } migSeq).1 = _
  simp [runSteps, runStep, migSeq, hu]

theorem get_all_words_proj (s : Store) :
    (get_all_words s).map projFields =
      (s.rows.map projFields).mergeSort soLERow := by
  unfold get_all_words
  exact List.map_mergeSort fun a _ b _ => rfl

/-- Claim C3: migration preservation and idempotence.  From a state with
a `dictionary` table whose rows satisfy the current `(term, pos)` key
(the already-migrated case) or have pairwise distinct terms (the legacy
`{term}`-only case), the v5 rename/create/copy/drop migration yields a
store with exactly the same sequence of
`term, pronunciation, pos, meaning, example, sort_order` rows — nothing
lost, nothing duplicated, `ListAll` unchanged column-for-column — while
the `id` column is freshly reassigned as `1..N`; the v6 migration
(`CREATE TABLE IF NOT EXISTS`) is a no-op on an existing table. -/
theorem migrate_db_preserves (s : Store)
    (h : uniqueKeys s.rows ∨ s.rows.Pairwise fun a b => a.term ≠ b.term) :
    ∃ s2 : Store,
      migrate_db_v5 { dict := some s, dict_old := none } =
        { dict := some s2, dict_old := none } ∧
      s2.rows.map projFields = s.rows.map projFields ∧
      s2.rows.length = s.rows.length ∧
      s2.rows.map (fun e => e.id) =
        (List.range s.rows.length).map (fun i => i + 1) ∧
      (get_all_words s2).map projFields =
        (get_all_words s).map projFields ∧
      (∀ old : Option Store,
         migrate_db_v6 { dict := some s, dict_old := old } =
           { dict := some s, dict_old := old }) := by
  have hk : uniqueKeys s.rows := by
    rcases h with h | h
    · exact h
    · exact h.imp fun hne hcon => hne hcon.1
  refine ⟨{ rows := copiedRows 0 s.rows, seq := 0 + s.rows.length },
    migrate_v5_run s hk, copiedRows_proj 0 s.rows,
    copiedRows_length 0 s.rows, copiedRows_ids s.rows, ?_, fun old => rfl⟩
  rw [get_all_words_proj, get_all_words_proj]
  show ((copiedRows 0 s.rows).map projFields).mergeSort soLERow = _
  rw [copiedRows_proj]

/-- Witness for C3 on a concrete two-row legacy store: after migration
the (migrated) `dictionary` table is present and the renamed table is
gone. -/
theorem migrate_db_preserves_witness :
    (migrate_db_v5
        { dict := some { rows := [mkRow 7 "b" "V" 2, mkRow 9 "a" "N" 1],
                         seq := 9 },
          dict_old := none }).dict_old = none ∧
    (migrate_db_v5
        { dict := some { rows := [mkRow 7 "b" "V" 2, mkRow 9 "a" "N" 1],
                         seq := 9 },
          dict_old := none }).dict ≠ none := by
  rcases migrate_db_preserves
      { rows := [mkRow 7 "b" "V" 2, mkRow 9 "a" "N" 1], seq := 9 }
      (Or.inr (by decide)) with ⟨s2, heq, -, -, -, -, -⟩
  rw [heq]
  exact ⟨rfl, by simp⟩

theorem soLE_trans : ∀ (a b c : Entry),
    soLE a b = true → soLE b c = true → soLE a c = true := by
  intro a b c hab hbc
  simp only [soLE, decide_eq_true_eq] at hab hbc ⊢
  omega

theorem soLE_total : ∀ (a b : Entry), (soLE a b || soLE b a) = true := by
  intro a b
  simp only [soLE, Bool.or_eq_true, decide_eq_true_eq]
  omega

/-- Claim C5 (amended): `ListAll` returns all stored entries in ascending
`sort_order`.  The query names no secondary sort key, so the relative
order of rows sharing a `sort_order` is left unspecified by the engine
(`orderBySortOrder` is the admissibility contract of the statement, and
`get_all_words` is one admissible result).  When the stored `sort_order`
values are pairwise distinct — which the store's ordering invariant
guarantees — the admissible result is unique, hence total and
deterministic, and strictly ascending. -/
theorem listall_order_contract (s : Store)
    (hdist : s.rows.Pairwise fun a b => a.sort_order ≠ b.sort_order) :
    orderBySortOrder s.rows (get_all_words s) ∧
    (∀ out1 out2, orderBySortOrder s.rows out1 →
       orderBySortOrder s.rows out2 → out1 = out2) ∧
    (∀ out, orderBySortOrder s.rows out →
       out.Pairwise fun a b => a.sort_order < b.sort_order) := by
  have hkey : ∀ a ∈ s.rows, ∀ b ∈ s.rows,
      a.sort_order = b.sort_order → a = b := by
    intro a ha b hb hso
    by_contra hne
    obtain ⟨i, hi, hia⟩ := List.getElem_of_mem ha
    obtain ⟨j, hj, hjb⟩ := List.getElem_of_mem hb
    have hij : i ≠ j := by
      intro hcon
      subst hcon
      exact hne (by rw [← hia, ← hjb])
    rw [List.pairwise_iff_getElem] at hdist
    rcases Nat.lt_or_ge i j with hlt | hge
    · exact hdist i j hi hj hlt (by rw [hia, hjb]; exact hso)
    · have hlt : j < i := Nat.lt_of_le_of_ne hge (Ne.symm hij)
      exact hdist j i hj hi hlt (by rw [hjb, hia]; exact hso.symm)
  have hnodupRows : s.rows.Nodup :=
    hdist.imp fun hso hcon => hso (by rw [hcon])
  refine ⟨⟨List.mergeSort_perm s.rows soLE, ?_⟩, ?_, ?_⟩
  · have hs := List.sorted_mergeSort soLE_trans soLE_total s.rows
    exact hs.imp fun h => of_decide_eq_true h
  · intro out1 out2 h1 h2
    obtain ⟨hp1, hs1⟩ := h1
    obtain ⟨hp2, hs2⟩ := h2
    refine List.Perm.eq_of_sorted ?_ hs1 hs2 (hp1.trans hp2.symm)
    intro a b ha hb hab hba
    exact hkey a (hp1.subset ha) b (hp2.subset hb) (le_antisymm hab hba)
  · intro out hout
    obtain ⟨hp, hs⟩ := hout
    have hnd : out.Nodup := List.Perm.nodup hp.symm hnodupRows
    refine (hs.and hnd).imp_of_mem ?_
    intro a b ha hb hab
    obtain ⟨hle2, hne2⟩ := hab
    rcases lt_or_eq_of_le hle2 with hlt | heq
    · exact hlt
    · exact absurd (hkey a (hp.subset ha) b (hp.subset hb) heq) hne2

/-- Witness for C5's amended theorem on a concrete tie-free two-row
table: the executable `get_all_words` is an admissible result of the
`ORDER BY`. -/
theorem listall_order_contract_witness :
    orderBySortOrder [mkRow 1 "a" "V" 2, mkRow 2 "b" "V" 1]
      (get_all_words { rows := [mkRow 1 "a" "V" 2, mkRow 2 "b" "V" 1],
                       seq := 2 }) :=
  (listall_order_contract
    { rows := [mkRow 1 "a" "V" 2, mkRow 2 "b" "V" 1], seq := 2 }
    (by decide)).1

/-- Counterexample for C5 as stated: on a table whose two rows share
`sort_order` 5, the output listing the `id` 2 row before the `id` 1 row
is an admissible result of `ORDER BY sort_order ASC` (the engine leaves
equal-key order unspecified and the query requests no `id` tie-break),
yet it does not put the smaller id first; and a second, different output
is admissible too, so the returned order is not determined. -/
theorem listall_tiebreak_counterexample :
    orderBySortOrder [mkRow 1 "a" "V" 5, mkRow 2 "b" "V" 5]
      [mkRow 2 "b" "V" 5, mkRow 1 "a" "V" 5] ∧
    ¬ ([mkRow 2 "b" "V" 5, mkRow 1 "a" "V" 5].Pairwise fun a b =>
        a.sort_order < b.sort_order ∨
        (a.sort_order = b.sort_order ∧ a.id < b.id)) ∧
    orderBySortOrder [mkRow 1 "a" "V" 5, mkRow 2 "b" "V" 5]
      [mkRow 1 "a" "V" 5, mkRow 2 "b" "V" 5] ∧
    [mkRow 2 "b" "V" 5, mkRow 1 "a" "V" 5] ≠
      [mkRow 1 "a" "V" 5, mkRow 2 "b" "V" 5] := by
  refine ⟨by decide, by decide, by decide, by decide⟩

end ReDicSearcher
